import Mathlib

/-!
# FitMeal-AI ingredient-recognition pipeline: shallow embedding and verification

This file embeds the ingredient-recognition fusion pipeline of the FitMeal-AI
repository in Lean 4 and proves (or refutes) the specification's claims about
it.  The embedded code lives in `app/vision/ingredient_mapper.py` and
`app/vision/hybrid_detector.py` (with the adapter boundary of
`app/vision/clarifai_detector.py` and `app/vision/detector.py`).

Modelling conventions:
* Python strings are modelled as `List Char`; `str.lower`, `str.strip`,
  `str.replace`, `in`, `startswith` are modelled by the corresponding
  character-list functions defined below (ASCII-faithful).
* SQLAlchemy queries over the `Ingredient` table are modelled as pure scans
  of a `List Ingredient` in database order; `.first()` is the head of the
  filtered list, and `.order_by(length(name)).first()` is the earliest
  element of minimal name length (a stable reading of the query).
* Confidences are exact rationals (`ℚ`); the float round-to-3-decimals inside
  an adapter is absorbed into the adapter's reported confidence.
* Fallible adapter calls are modelled with `Option`/`Except` values supplied
  by an `AdapterEnv`; a Python function that catches its own exceptions and
  returns an error dict is modelled as total, with the error case explicit.
-/

namespace FitMeal

/-! ## Character-list string primitives -/

/-- `str.lower()` over a character list (ASCII). -/
def lowerChars (l : List Char) : List Char := l.map Char.toLower

/-- `str.strip()` over a character list: drop leading and trailing whitespace. -/
def trimChars (l : List Char) : List Char :=
  (((l.dropWhile Char.isWhitespace).reverse.dropWhile Char.isWhitespace).reverse)

/-- Python `needle in hay` for strings: contiguous-substring test (`pat`
occurs as a prefix at some position of `hay`). -/
def containsSub (hay pat : List Char) : Bool :=
  match hay with
  | [] => pat.isPrefixOf []
  | c :: t => pat.isPrefixOf (c :: t) || containsSub t pat

/-- Fuelled worker for `replaceAll`; the fuel is an upper bound on the number
of characters still to scan, so with fuel `l.length` it is never exhausted. -/
def replaceAllFuel (pat rep : List Char) : Nat → List Char → List Char
  | 0, l => l
  | fuel + 1, l =>
    match l with
    | [] => []
    | h :: t =>
      if pat ≠ [] ∧ pat.isPrefixOf (h :: t) then
        rep ++ replaceAllFuel pat rep fuel (List.drop (pat.length - 1) t)
      else
        h :: replaceAllFuel pat rep fuel t

/-- Python `str.replace(pat, rep)`: replace every non-overlapping occurrence,
left to right.  Only called with non-empty `pat` in this development. -/
def replaceAll (pat rep l : List Char) : List Char :=
  replaceAllFuel pat rep l.length l

/-- Exact-key lookup in a hand-written Python dict, modelled as an
association list (keys are pairwise distinct in all tables used). -/
def lookupTable (t : List (List Char × List Char)) (k : List Char) :
    Option (List Char) :=
  match t with
  | [] => none
  | p :: rest => if p.1 = k then some p.2 else lookupTable rest k

/-! ## Label normalizer (`app/vision/ingredient_mapper.py`) -/

/-- `PLURAL_TO_SINGULAR` from `ingredient_mapper.py`. -/
def PLURAL_TO_SINGULAR : List (List Char × List Char) :=
  [("apples".data, "apple".data),
   ("oranges".data, "orange".data),
   ("bananas".data, "banana".data),
   ("carrots".data, "carrot".data),
   ("tomatoes".data, "tomato".data),
   ("potatoes".data, "potato".data),
   ("onions".data, "onion".data),
   ("peppers".data, "pepper".data),
   ("mushrooms".data, "mushroom".data),
   ("strawberries".data, "strawberry".data),
   ("blueberries".data, "blueberry".data),
   ("raspberries".data, "raspberry".data),
   ("cherries".data, "cherry".data),
   ("peaches".data, "peach".data),
   ("pears".data, "pear".data),
   ("grapes".data, "grape".data),
   ("cucumbers".data, "cucumber".data),
   ("zucchinis".data, "zucchini".data),
   ("eggplants".data, "eggplant".data),
   ("avocados".data, "avocado".data),
   ("mangos".data, "mango".data),
   ("mangoes".data, "mango".data),
   ("lemons".data, "lemon".data),
   ("limes".data, "lime".data),
   ("beets".data, "beet".data),
   ("beans".data, "bean".data),
   ("peas".data, "pea".data),
   ("nuts".data, "nut".data),
   ("almonds".data, "almond".data),
   ("walnuts".data, "walnut".data)]

/-- `INGREDIENT_ALIASES` from `ingredient_mapper.py`. -/
def INGREDIENT_ALIASES : List (List Char × List Char) :=
  [("red bell pepper".data, "bell pepper".data),
   ("green bell pepper".data, "bell pepper".data),
   ("yellow bell pepper".data, "bell pepper".data),
   ("red pepper".data, "bell pepper".data),
   ("sweet pepper".data, "bell pepper".data),
   ("bell peppers".data, "bell pepper".data),
   ("red onion".data, "onion".data),
   ("white onion".data, "onion".data),
   ("yellow onion".data, "onion".data),
   ("green onion".data, "onion".data),
   ("scallion".data, "onion".data),
   ("shallot".data, "onion".data),
   ("roma tomato".data, "tomato".data),
   ("cherry tomato".data, "tomato".data),
   ("grape tomato".data, "tomato".data),
   ("whole egg".data, "egg".data),
   ("chicken egg".data, "egg".data),
   ("whole wheat bread".data, "bread".data),
   ("white bread".data, "bread".data),
   ("wheat bread".data, "bread".data),
   ("olive oil".data, "oil".data),
   ("vegetable oil".data, "oil".data),
   ("canola oil".data, "oil".data)]

/-- The four modifier substrings removed by the normalizer, in the order the
code removes them (`name.replace('fresh ', '')`, then `raw`, `cooked`,
`organic`). -/
def MODIFIERS : List (List Char) :=
  ["fresh ".data, "raw ".data, "cooked ".data, "organic ".data]

/-- `if name in table: name = table[name]` — replace by the table entry when
the key is present, else keep the name. -/
def tableApply (t : List (List Char × List Char)) (k : List Char) :
    List Char :=
  match lookupTable t k with
  | some v => v
  | none => k

/-- `normalize_detection_name` from `ingredient_mapper.py`:
lowercase + strip, alias-table lookup, plural-table lookup, then
`str.replace` of each of the four modifier substrings by the empty string. -/
def normalize_detection_name (name : List Char) : List Char :=
  let n1 := trimChars (lowerChars name)
  let n2 := tableApply INGREDIENT_ALIASES n1
  let n3 := tableApply PLURAL_TO_SINGULAR n2
  MODIFIERS.foldl (fun acc pat => replaceAll pat [] acc) n3

example : normalize_detection_name "  Apples ".data = "apple".data := by decide
example : normalize_detection_name "red bell pepper".data = "bell pepper".data := by
  decide
example : normalize_detection_name "fresh apples".data = "apples".data := by decide
example : normalize_detection_name "apples".data = "apple".data := by decide
example : normalize_detection_name "farm fresh apple".data = "farm apple".data := by
  decide

/-! ## Catalog model (`app/models/ingredient.py`, read-only here) -/

/-- The fields of the `Ingredient` table that the vision pipeline reads.
The catalog itself is a `List Ingredient` in database row order. -/
structure Ingredient where
  id : Nat
  name : List Char
  name_es : Option (List Char)
  is_deleted : Bool
  is_verified : Bool
deriving DecidableEq, Repr

/-- `query.filter(pred).first()`: head of the filtered rows in database
order. -/
def queryFirst (cat : List Ingredient) (pred : Ingredient → Bool) :
    Option Ingredient :=
  (cat.filter pred).head?

/-- `query.filter(pred).order_by(length(name)).first()`: the earliest row of
minimal `name` length among the rows satisfying `pred`. -/
def minByNameLen : List Ingredient → Option Ingredient
  | [] => none
  | h :: t =>
    match minByNameLen t with
    | none => some h
    | some m => if m.name.length < h.name.length then some m else some h

def queryFirstByLen (cat : List Ingredient) (pred : Ingredient → Bool) :
    Option Ingredient :=
  minByNameLen (cat.filter pred)

/-! ## Catalog matcher (`map_detection_to_ingredient`) -/

/-- Strategy 1 of `map_detection_to_ingredient`:
`lower(Ingredient.name) == term` (no `is_deleted` filter in this path). -/
def mapperExact (cat : List Ingredient) (term : List Char) : Option Ingredient :=
  queryFirst cat (fun i => lowerChars i.name = term)

/-- Strategy 2: `lower(Ingredient.name) LIKE 'term%'`, ordered by name
length (prefer the shortest, i.e. the base ingredient). -/
def mapperStartsWith (cat : List Ingredient) (term : List Char) :
    Option Ingredient :=
  queryFirstByLen cat (fun i => term.isPrefixOf (lowerChars i.name))

/-- Strategy 3: `lower(Ingredient.name) LIKE '%term%'`, ordered by name
length. -/
def mapperContains (cat : List Ingredient) (term : List Char) :
    Option Ingredient :=
  queryFirstByLen cat (fun i => containsSub (lowerChars i.name) term)

/-- One pass of the strategy ladder of `map_detection_to_ingredient` for a
single search term: exact, then starts-with, then contains; first hit wins. -/
def mapperTryTerm (cat : List Ingredient) (term : List Char) :
    Option Ingredient :=
  match mapperExact cat term with
  | some i => some i
  | none =>
    match mapperStartsWith cat term with
    | some i => some i
    | none => mapperContains cat term

/-- First successful result over a list of search terms (the
`for term in search_terms` loop with early return). -/
def firstHit (cat : List Ingredient) : List (List Char) → Option Ingredient
  | [] => none
  | t :: ts =>
    match mapperTryTerm cat t with
    | some i => some i
    | none => firstHit cat ts

/-- `map_detection_to_ingredient` from `ingredient_mapper.py`: normalize the
detection, and if the lowercased raw name differs from the normalized name,
run the full strategy ladder on the raw name first, then on the normalized
name.  Returns the matched catalog row (the Python code returns
`ingredient_to_dict` of it). -/
def map_detection_to_ingredient (cat : List Ingredient)
    (detected_name : List Char) : Option Ingredient :=
  let search_term := normalize_detection_name detected_name
  let search_terms :=
    if lowerChars detected_name ≠ search_term then
      [lowerChars detected_name, search_term]
    else
      [search_term]
  firstHit cat search_terms

/-- `process_yolo_detections` input: one raw detection from an adapter. -/
structure RawDet where
  class_name : List Char
  confidence : ℚ
deriving DecidableEq, Repr

/-- Detection source tag (the `'source'` string field). -/
inductive Source where
  | yolo
  | clarifai
deriving DecidableEq, Repr

/-- A matched-detection dict as built by `process_yolo_detections` and
`map_clarifai_to_ingredients` (`verified` is present only on Clarifai
entries, hence the `Option`). -/
structure Det where
  ingredient_id : Nat
  ingredient_name : List Char
  detected_as : List Char
  confidence : ℚ
  source : Source
  verified : Option Bool
deriving DecidableEq, Repr

/-- `process_yolo_detections` from `ingredient_mapper.py`, restricted to its
`matched` output list (the pipeline's consumer reads only that). -/
def process_yolo_detections (cat : List Ingredient) (dets : List RawDet) :
    List Det :=
  dets.foldr
    (fun d acc =>
      match map_detection_to_ingredient cat d.class_name with
      | some ing =>
        { ingredient_id := ing.id
          ingredient_name := ing.name
          detected_as := d.class_name
          confidence := d.confidence
          source := Source.yolo
          verified := none } :: acc
      | none => acc)
    []

/-! ## Clarifai mapping path (`map_clarifai_to_ingredients` in
`app/vision/hybrid_detector.py`) -/

/-- The local `plural_map` inside `map_clarifai_to_ingredients`. -/
def clarifaiPluralMap : List (List Char × List Char) :=
  [("beets".data, "beet".data),
   ("carrots".data, "carrot".data),
   ("tomatoes".data, "tomato".data),
   ("potatoes".data, "potato".data),
   ("onions".data, "onion".data),
   ("peppers".data, "pepper".data),
   ("mushrooms".data, "mushroom".data),
   ("apples".data, "apple".data),
   ("oranges".data, "orange".data),
   ("bananas".data, "banana".data),
   ("strawberries".data, "strawberry".data),
   ("blueberries".data, "blueberry".data),
   ("raspberries".data, "raspberry".data)]

/-- `search_terms = [food_name]` plus the singular form when `food_name` is a
key of the local plural map. -/
def clarifaiSearchTerms (food_name : List Char) : List (List Char) :=
  match lookupTable clarifaiPluralMap food_name with
  | some s => [food_name, s]
  | none => [food_name]

/-- The row predicate shared by the Clarifai `contains` strategy and the
"reverse match" loop: `lower(name)` contains `term`, or `name_es` is present
and `lower(name_es)` contains `term` (SQL `lower(NULL) LIKE …` is falsy). -/
def clarifaiContainsPred (term : List Char) (i : Ingredient) : Bool :=
  containsSub (lowerChars i.name) term ||
    (match i.name_es with
     | some es => containsSub (lowerChars es) term
     | none => false)

/-- Clarifai strategy 1: exact match on `lower(name)` or `lower(name_es)`,
restricted to non-deleted rows; plain `.first()` (no ordering). -/
def clarifaiExact (cat : List Ingredient) (term : List Char) :
    Option Ingredient :=
  queryFirst cat (fun i =>
    !i.is_deleted &&
      (lowerChars i.name = term ||
        (match i.name_es with
         | some es => lowerChars es = term
         | none => false)))

/-- Clarifai strategy 2: `LIKE 'term%'` on `lower(name)` or `lower(name_es)`,
non-deleted rows, plain `.first()` — note: no shortest-name ordering here. -/
def clarifaiStartsWith (cat : List Ingredient) (term : List Char) :
    Option Ingredient :=
  queryFirst cat (fun i =>
    !i.is_deleted &&
      (term.isPrefixOf (lowerChars i.name) ||
        (match i.name_es with
         | some es => term.isPrefixOf (lowerChars es)
         | none => false)))

/-- Clarifai strategy 3: `LIKE '%term%'`, non-deleted rows, plain
`.first()`. -/
def clarifaiContains (cat : List Ingredient) (term : List Char) :
    Option Ingredient :=
  queryFirst cat (fun i => !i.is_deleted && clarifaiContainsPred term i)

/-- Strategies 1–3 for a single term, first hit wins. -/
def clarifaiTryTerm (cat : List Ingredient) (term : List Char) :
    Option Ingredient :=
  match clarifaiExact cat term with
  | some i => some i
  | none =>
    match clarifaiStartsWith cat term with
    | some i => some i
    | none => clarifaiContains cat term

/-- The `for term in search_terms` loop over strategies 1–3. -/
def clarifaiLadder (cat : List Ingredient) : List (List Char) →
    Option Ingredient
  | [] => none
  | t :: ts =>
    match clarifaiTryTerm cat t with
    | some i => some i
    | none => clarifaiLadder cat ts

/-- Strategy 4, the "reverse match" loop: for each term, scan
`Ingredient.query.filter_by(is_deleted=False).limit(100)` — i.e. the first
100 non-deleted rows — and return the first row whose name (or Spanish name)
contains the term. -/
def clarifaiReverse (cat : List Ingredient) : List (List Char) →
    Option Ingredient
  | [] => none
  | t :: ts =>
    match ((cat.filter (fun i => !i.is_deleted)).take 100).find?
        (fun i => clarifaiContainsPred t i) with
    | some i => some i
    | none => clarifaiReverse cat ts

/-- Resolution of one Clarifai detection name against the catalog:
strategies 1–3 over all search terms, then the reverse-match scan. -/
def clarifaiResolve (cat : List Ingredient) (food_name : List Char) :
    Option Ingredient :=
  let terms := clarifaiSearchTerms food_name
  match clarifaiLadder cat terms with
  | some i => some i
  | none => clarifaiReverse cat terms

/-- `map_clarifai_to_ingredients` from `hybrid_detector.py`, restricted to
its `matched` output list. -/
def map_clarifai_to_ingredients (cat : List Ingredient)
    (dets : List RawDet) : List Det :=
  dets.foldr
    (fun d acc =>
      let food_name := trimChars (lowerChars d.class_name)
      match clarifaiResolve cat food_name with
      | some ing =>
        { ingredient_id := ing.id
          ingredient_name := ing.name
          detected_as := food_name
          confidence := d.confidence
          source := Source.clarifai
          verified := some ing.is_verified } :: acc
      | none => acc)
    []

/-! ## Merge/dedup engine (`merge_detections` in `hybrid_detector.py`) -/

/-- The merge dict, keyed by `ingredient_id`, in Python insertion order. -/
abbrev DMap := List (Nat × Det)

/-- First-match association lookup (Python `merged[id]` /
`id in merged`). -/
def alookup (m : DMap) (k : Nat) : Option Det :=
  match m with
  | [] => none
  | p :: t => if p.1 = k then some p.2 else alookup t k

/-- Python `merged[k] = v`: replace in place if the key exists (dict
insertion order keeps the original position), else append. -/
def dictSet (m : DMap) (k : Nat) (v : Det) : DMap :=
  if (alookup m k).isSome then
    m.map (fun p => if p.1 = k then (k, v) else p)
  else
    m ++ [(k, v)]

/-- The first merge loop: every YOLO detection is written unconditionally. -/
def yoloStep (m : DMap) (d : Det) : DMap :=
  dictSet m d.ingredient_id d

/-- The second merge loop: a Clarifai detection is added if its id is new,
and replaces an existing entry only when its confidence is strictly
greater. -/
def clarifaiStep (m : DMap) (d : Det) : DMap :=
  match alookup m d.ingredient_id with
  | none => dictSet m d.ingredient_id d
  | some e =>
    if e.confidence < d.confidence then dictSet m d.ingredient_id d else m

/-- Stable descending insertion: the new element goes after every element of
equal or greater confidence. -/
def insertDesc (d : Det) : List Det → List Det
  | [] => [d]
  | x :: xs =>
    if x.confidence < d.confidence then d :: x :: xs else x :: insertDesc d xs

/-- Python `sorted(_, key=confidence, reverse=True)`: stable descending sort
by confidence. -/
def sortDesc (l : List Det) : List Det :=
  l.foldl (fun acc d => insertDesc d acc) []

/-- `merge_detections` from `hybrid_detector.py`. -/
def merge_detections (yolo_results clarifai_results : List Det) : List Det :=
  let m1 := yolo_results.foldl yoloStep []
  let m2 := clarifai_results.foldl clarifaiStep m1
  sortDesc (m2.map Prod.snd)

/-! ## Fusion policy (`detect_ingredients_hybrid` in `hybrid_detector.py`)

The two adapters are opaque network components; an `AdapterEnv` records, for
one pipeline run, whether each adapter's constructor raises and what its
detection call produces.  `detect_ingredients` (YOLO) and `detect_food`
(Clarifai) both catch their own exceptions and return an error dict whose
`detections` list is empty, so their outcome is an `Except` value that the
wrapper collapses to a detection list. -/

structure AdapterEnv where
  /-- `get_yolo_detector()` raises (e.g. model file missing): the message. -/
  yoloCtorError : Option (List Char)
  /-- Outcome of `detect_ingredients`' internal `try`: detections, or the
  caught error (its error dict carries `detections = []`). -/
  yoloResponse : Except (List Char) (List RawDet)
  /-- `get_clarifai_detector()` raises (e.g. `CLARIFAI_PAT` unset). -/
  clarifaiCtorError : Option (List Char)
  /-- Outcome of `detect_food`'s internal `try`, before its
  `min_confidence` filter. -/
  clarifaiResponse : Except (List Char) (List RawDet)

/-- `ClarifaiDetector.detect_food`: on any caught exception the error dict's
`detections` list is empty; on success the concepts are filtered by
`confidence >= min_confidence`. -/
def clarifai_detect_food (resp : Except (List Char) (List RawDet))
    (min_confidence : ℚ) : List RawDet :=
  match resp with
  | Except.error _ => []
  | Except.ok concepts =>
    concepts.filter (fun c => min_confidence ≤ c.confidence)

/-- Mean confidence of the raw YOLO detections (used only when the list is
non-empty). -/
def avgConf (l : List RawDet) : ℚ :=
  (l.map (fun d => d.confidence)).sum / (l.length : ℚ)

/-- `detect_ingredients_hybrid` from `hybrid_detector.py`, collapsed to its
observable outcome: the outer `except` clause returns an error dict
(modelled `Except.error`), the normal path returns the merged detection
list.  The Clarifai block sits in its own inner `try`, so a Clarifai
constructor failure only zeroes that adapter's contribution. -/
def detect_ingredients_hybrid (cat : List Ingredient) (env : AdapterEnv) :
    Except (List Char) (List Det) :=
  match env.yoloCtorError with
  | some e => Except.error e
  | none =>
    let yolo_detections :=
      match env.yoloResponse with
      | Except.ok l => l
      | Except.error _ => []
    let yolo_matched := process_yolo_detections cat yolo_detections
    let use_clarifai :=
      if yolo_matched.length < 2 then true
      else if yolo_detections ≠ [] ∧ avgConf yolo_detections < mkRat 2 5 then true
      else false
    let clarifai_matched :=
      if use_clarifai then
        match env.clarifaiCtorError with
        | some _ => []
        | none =>
          map_clarifai_to_ingredients cat
            (clarifai_detect_food env.clarifaiResponse (mkRat 3 10))
      else []
    Except.ok (merge_detections yolo_matched clarifai_matched)

/-! ## Dictionary lemmas -/

lemma alookup_append_last (m : DMap) (k : Nat) (v : Det)
    (h : alookup m k = none) : alookup (m ++ [(k, v)]) k = some v := by
  induction m with
  | nil => simp [alookup]
  | cons p t ih =>
    simp only [alookup] at h ⊢
    by_cases hk : p.1 = k
    · simp [hk] at h
    · simp only [hk, if_false] at h ⊢
      exact ih h

lemma alookup_append_ne (m : DMap) (k k' : Nat) (v : Det) (h : k' ≠ k) :
    alookup (m ++ [(k, v)]) k' = alookup m k' := by
  induction m with
  | nil =>
    simp only [List.nil_append, alookup]
    exact if_neg (fun hh => h hh.symm)
  | cons p t ih =>
    simp only [alookup, List.cons_append]
    by_cases hk : p.1 = k'
    · simp [hk]
    · simp only [hk, if_false]
      exact ih

lemma alookup_replace_self (m : DMap) (k : Nat) (v : Det) :
    alookup (m.map (fun p => if p.1 = k then (k, v) else p)) k =
      (alookup m k).map (fun _ => v) := by
  induction m with
  | nil => simp [alookup]
  | cons p t ih =>
    by_cases hk : p.1 = k
    · simp [alookup, hk]
    · simp [alookup, hk, ih]

lemma alookup_replace_ne (m : DMap) (k k' : Nat) (v : Det) (h : k' ≠ k) :
    alookup (m.map (fun p => if p.1 = k then (k, v) else p)) k' =
      alookup m k' := by
  induction m with
  | nil => simp [alookup]
  | cons p t ih =>
    by_cases hk : p.1 = k
    · have : k ≠ k' := fun hh => h hh.symm
      simp [alookup, hk, this, ih]
    · by_cases hk' : p.1 = k'
      · simp [alookup, hk, hk', h]
      · simp [alookup, hk, hk', ih]

lemma alookup_dictSet_self (m : DMap) (k : Nat) (v : Det) :
    alookup (dictSet m k v) k = some v := by
  unfold dictSet
  by_cases h : (alookup m k).isSome
  · rcases Option.isSome_iff_exists.mp h with ⟨e, he⟩
    simp [h, alookup_replace_self, he]
  · have hn : alookup m k = none := Option.not_isSome_iff_eq_none.mp h
    simp [h, alookup_append_last m k v hn]

lemma alookup_dictSet_ne (m : DMap) (k k' : Nat) (v : Det) (h : k' ≠ k) :
    alookup (dictSet m k v) k' = alookup m k' := by
  unfold dictSet
  by_cases hs : (alookup m k).isSome
  · simp [hs, alookup_replace_ne m k k' v h]
  · simp [hs, alookup_append_ne m k k' v h]

lemma mem_dictSet (p : Nat × Det) (m : DMap) (k : Nat) (v : Det)
    (hp : p ∈ dictSet m k v) : p ∈ m ∨ p = (k, v) := by
  unfold dictSet at hp
  by_cases hs : (alookup m k).isSome
  · rw [if_pos hs] at hp
    rcases List.mem_map.mp hp with ⟨q, hq, hfq⟩
    by_cases hk : q.1 = k
    · right
      simp [hk] at hfq
      exact hfq.symm
    · left
      simp only [hk, if_false] at hfq
      exact hfq ▸ hq
  · rw [if_neg hs] at hp
    rcases List.mem_append.mp hp with h | h
    · exact Or.inl h
    · exact Or.inr (List.mem_singleton.mp h)

lemma alookup_mem (m : DMap) (k : Nat) (v : Det)
    (h : alookup m k = some v) : (k, v) ∈ m := by
  induction m with
  | nil => simp [alookup] at h
  | cons p t ih =>
    simp only [alookup] at h
    by_cases hk : p.1 = k
    · simp only [hk, if_true, Option.some.injEq] at h
      have hpv : p = (k, v) := by
        obtain ⟨a, b⟩ := p
        simp only at hk h
        rw [hk, h]
      rw [← hpv]
      exact List.mem_cons_self _ _
    · simp only [hk, if_false] at h
      exact List.mem_cons_of_mem _ (ih h)

lemma map_fst_dictSet (m : DMap) (k : Nat) (v : Det) :
    (dictSet m k v).map Prod.fst =
      if (alookup m k).isSome then m.map Prod.fst
      else m.map Prod.fst ++ [k] := by
  unfold dictSet
  by_cases hs : (alookup m k).isSome
  · simp only [hs, if_true, List.map_map]
    refine List.map_congr_left ?_
    intro p _
    by_cases hk : p.1 = k
    · simp [hk]
    · simp [hk]
  · simp [hs]

lemma alookup_eq_none_iff (m : DMap) (k : Nat) :
    alookup m k = none ↔ k ∉ m.map Prod.fst := by
  induction m with
  | nil => simp [alookup]
  | cons p t ih =>
    by_cases hk : p.1 = k
    · simp [alookup, hk]
    · rw [List.map_cons]
      simp only [alookup, hk, if_false, List.mem_cons]
      rw [ih]
      constructor
      · intro hnot h
        rcases h with h1 | h2
        · exact hk h1.symm
        · exact hnot h2
      · intro hnot h
        exact hnot (Or.inr h)

lemma alookup_of_mem_nodup (m : DMap) (p : Nat × Det)
    (hnd : (m.map Prod.fst).Nodup) (hp : p ∈ m) :
    alookup m p.1 = some p.2 := by
  induction m with
  | nil => simp at hp
  | cons q t ih =>
    simp only [List.map_cons, List.nodup_cons] at hnd
    rcases List.mem_cons.mp hp with h | h
    · simp [alookup, h]
    · have hne : q.1 ≠ p.1 := by
        intro he
        exact hnd.1 (he ▸ (List.mem_map.mpr ⟨p, h, rfl⟩))
      simp [alookup, hne, ih hnd.2 h]

/-! ## Sorting lemmas -/

lemma insertDesc_perm (d : Det) (l : List Det) :
    (insertDesc d l).Perm (d :: l) := by
  induction l with
  | nil => simp [insertDesc]
  | cons x xs ih =>
    by_cases h : x.confidence < d.confidence
    · simp [insertDesc, h]
    · simp only [insertDesc, h, if_false]
      exact (ih.cons x).trans (List.Perm.swap d x xs)

lemma sortDesc_go_perm (l acc : List Det) :
    (l.foldl (fun a d => insertDesc d a) acc).Perm (acc ++ l) := by
  induction l generalizing acc with
  | nil => simp
  | cons d t ih =>
    simp only [List.foldl_cons]
    refine (ih (insertDesc d acc)).trans ?_
    refine (List.Perm.append_right t (insertDesc_perm d acc)).trans ?_
    exact List.perm_middle.symm

lemma sortDesc_perm (l : List Det) : (sortDesc l).Perm l := by
  simpa using sortDesc_go_perm l []

/-- Output ordering predicate: non-increasing confidence. -/
def SortedDesc (l : List Det) : Prop :=
  l.Chain' (fun a b => b.confidence ≤ a.confidence)

lemma sortedDesc_insertDesc (d : Det) (l : List Det) (h : SortedDesc l) :
    SortedDesc (insertDesc d l) := by
  induction l with
  | nil => simp [insertDesc, SortedDesc]
  | cons x xs ih =>
    by_cases hx : x.confidence < d.confidence
    · simp only [insertDesc, hx, if_true]
      exact List.Chain'.cons (le_of_lt hx) h
    · simp only [insertDesc, hx, if_false]
      have hxs : SortedDesc xs := (List.chain'_cons'.mp h).2
      refine List.chain'_cons'.mpr ⟨?_, ih hxs⟩
      intro y hy
      cases xs with
      | nil =>
        simp [insertDesc] at hy
        rw [← hy]
        exact le_of_not_lt hx
      | cons z zs =>
        by_cases hz : z.confidence < d.confidence
        · simp only [insertDesc, hz, if_true, List.head?_cons,
            Option.mem_def, Option.some.injEq] at hy
          rw [← hy]
          exact le_of_not_lt hx
        · simp only [insertDesc, hz, if_false, List.head?_cons,
            Option.mem_def, Option.some.injEq] at hy
          rw [← hy]
          exact (List.chain'_cons.mp h).1

lemma sortedDesc_sortDesc_go (l acc : List Det) (h : SortedDesc acc) :
    SortedDesc (l.foldl (fun a d => insertDesc d a) acc) := by
  induction l generalizing acc with
  | nil => exact h
  | cons d t ih =>
    simp only [List.foldl_cons]
    exact ih _ (sortedDesc_insertDesc d acc h)

lemma sortedDesc_sortDesc (l : List Det) : SortedDesc (sortDesc l) :=
  sortedDesc_sortDesc_go l [] (by simp [SortedDesc])

/-! ## Merge-map invariants -/

/-- Every stored pair is keyed by its detection's `ingredient_id`. -/
def KeysOk (m : DMap) : Prop := ∀ p ∈ m, p.1 = p.2.ingredient_id

lemma keysOk_dictSet (m : DMap) (d : Det) (h : KeysOk m) :
    KeysOk (dictSet m d.ingredient_id d) := by
  intro p hp
  rcases mem_dictSet p m d.ingredient_id d hp with hm | he
  · exact h p hm
  · rw [he]

lemma nodup_keys_dictSet (m : DMap) (k : Nat) (v : Det)
    (h : (m.map Prod.fst).Nodup) :
    ((dictSet m k v).map Prod.fst).Nodup := by
  rw [map_fst_dictSet]
  by_cases hs : (alookup m k).isSome
  · simpa [hs] using h
  · have hk : k ∉ m.map Prod.fst :=
      (alookup_eq_none_iff m k).mp (Option.not_isSome_iff_eq_none.mp hs)
    rw [if_neg hs, List.nodup_append]
    refine ⟨h, List.nodup_singleton k, ?_⟩
    intro a ha hb
    rw [List.mem_singleton] at hb
    exact hk (hb ▸ ha)

lemma clarifaiStep_cases (m : DMap) (d : Det) :
    clarifaiStep m d = dictSet m d.ingredient_id d ∨ clarifaiStep m d = m := by
  unfold clarifaiStep
  cases h : alookup m d.ingredient_id with
  | none => exact Or.inl rfl
  | some e =>
    by_cases hc : e.confidence < d.confidence
    · simp [hc]
    · simp [hc]

lemma keysOk_foldl_yolo (ys : List Det) (m : DMap) (h : KeysOk m) :
    KeysOk (ys.foldl yoloStep m) := by
  induction ys generalizing m with
  | nil => exact h
  | cons d t ih => exact ih _ (keysOk_dictSet m d h)

lemma keysOk_foldl_clarifai (cs : List Det) (m : DMap) (h : KeysOk m) :
    KeysOk (cs.foldl clarifaiStep m) := by
  induction cs generalizing m with
  | nil => exact h
  | cons d t ih =>
    refine ih _ ?_
    rcases clarifaiStep_cases m d with hc | hc
    · rw [hc]
      exact keysOk_dictSet m d h
    · rwa [hc]

lemma nodup_keys_foldl_yolo (ys : List Det) (m : DMap)
    (h : (m.map Prod.fst).Nodup) :
    ((ys.foldl yoloStep m).map Prod.fst).Nodup := by
  induction ys generalizing m with
  | nil => exact h
  | cons d t ih => exact ih _ (nodup_keys_dictSet m _ d h)

lemma nodup_keys_foldl_clarifai (cs : List Det) (m : DMap)
    (h : (m.map Prod.fst).Nodup) :
    ((cs.foldl clarifaiStep m).map Prod.fst).Nodup := by
  induction cs generalizing m with
  | nil => exact h
  | cons d t ih =>
    refine ih _ ?_
    rcases clarifaiStep_cases m d with hc | hc
    · rw [hc]
      exact nodup_keys_dictSet m _ d h
    · rwa [hc]

/-! ## The merge map tracks, per id, a maximal-confidence contribution -/

/-- `UB m inputs`: for each id, the map either has no entry and no input
carries that id, or it stores one of the inputs with that id whose
confidence bounds every input with that id. -/
def UB (m : DMap) (inputs : List Det) : Prop :=
  ∀ i : Nat,
    (alookup m i = none → ∀ d ∈ inputs, d.ingredient_id ≠ i) ∧
    (∀ e, alookup m i = some e →
      e.ingredient_id = i ∧ e ∈ inputs ∧
      ∀ d ∈ inputs, d.ingredient_id = i → d.confidence ≤ e.confidence)

lemma ub_nil : UB [] [] := by
  intro i
  constructor
  · intro _ d hd
    simp at hd
  · intro e he
    simp [alookup] at he

lemma ub_extend_set (m : DMap) (seen : List Det) (d : Det) (hub : UB m seen)
    (hmax : ∀ x ∈ seen, x.ingredient_id = d.ingredient_id →
      x.confidence ≤ d.confidence) :
    UB (dictSet m d.ingredient_id d) (seen ++ [d]) := by
  intro i
  by_cases hi : i = d.ingredient_id
  · subst hi
    constructor
    · intro hnone
      rw [alookup_dictSet_self] at hnone
      exact absurd hnone (by simp)
    · intro e he
      rw [alookup_dictSet_self] at he
      obtain rfl : d = e := by injection he
      refine ⟨rfl, by simp, ?_⟩
      intro x hx hxid
      rcases List.mem_append.mp hx with hxs | hxd
      · exact hmax x hxs hxid
      · rw [List.mem_singleton.mp hxd]
  · have hne : i ≠ d.ingredient_id := hi
    rw [show alookup (dictSet m d.ingredient_id d) i = alookup m i from
      alookup_dictSet_ne m d.ingredient_id i d hne] at *
    constructor
    · intro hnone x hx
      rcases List.mem_append.mp hx with hxs | hxd
      · exact ((hub i).1 hnone) x hxs
      · rw [List.mem_singleton.mp hxd]
        exact fun h => hne h.symm
    · intro e he
      obtain ⟨h1, h2, h3⟩ := (hub i).2 e he
      refine ⟨h1, List.mem_append.mpr (Or.inl h2), ?_⟩
      intro x hx hxid
      rcases List.mem_append.mp hx with hxs | hxd
      · exact h3 x hxs hxid
      · exfalso
        rw [List.mem_singleton.mp hxd] at hxid
        exact hne hxid.symm

lemma ub_extend_keep (m : DMap) (seen : List Det) (d e : Det) (hub : UB m seen)
    (he : alookup m d.ingredient_id = some e)
    (hle : d.confidence ≤ e.confidence) :
    UB m (seen ++ [d]) := by
  intro i
  constructor
  · intro hnone x hx
    rcases List.mem_append.mp hx with hxs | hxd
    · exact ((hub i).1 hnone) x hxs
    · rw [List.mem_singleton.mp hxd]
      intro hid
      rw [hid] at he
      rw [he] at hnone
      exact absurd hnone (by simp)
  · intro f hf
    obtain ⟨h1, h2, h3⟩ := (hub i).2 f hf
    refine ⟨h1, List.mem_append.mpr (Or.inl h2), ?_⟩
    intro x hx hxid
    rcases List.mem_append.mp hx with hxs | hxd
    · exact h3 x hxs hxid
    · rw [List.mem_singleton.mp hxd] at hxid ⊢
      rw [hxid] at he
      rw [he] at hf
      obtain rfl : e = f := by injection hf
      exact hle

lemma ub_foldl_yolo (ys : List Det) (m : DMap) (seen : List Det)
    (hub : UB m seen)
    (hfresh : ∀ d ∈ ys, alookup m d.ingredient_id = none)
    (hnd : (ys.map (fun d => d.ingredient_id)).Nodup) :
    UB (ys.foldl yoloStep m) (seen ++ ys) := by
  induction ys generalizing m seen with
  | nil => simpa using hub
  | cons d t ih =>
    simp only [List.map_cons, List.nodup_cons] at hnd
    have hd : alookup m d.ingredient_id = none := hfresh d (by simp)
    have hub' : UB (yoloStep m d) (seen ++ [d]) := by
      refine ub_extend_set m seen d hub ?_
      intro x hx hxid
      exact absurd hxid (((hub d.ingredient_id).1 hd) x hx)
    have hfresh' : ∀ x ∈ t, alookup (yoloStep m d) x.ingredient_id = none := by
      intro x hx
      have hne : x.ingredient_id ≠ d.ingredient_id := by
        intro hcon
        exact hnd.1 (hcon ▸ List.mem_map.mpr ⟨x, hx, rfl⟩)
      rw [show alookup (yoloStep m d) x.ingredient_id =
          alookup m x.ingredient_id from
        alookup_dictSet_ne m d.ingredient_id x.ingredient_id d hne]
      exact hfresh x (List.mem_cons_of_mem _ hx)
    have := ih (yoloStep m d) (seen ++ [d]) hub' hfresh' hnd.2
    simpa using this

lemma clarifaiStep_of_none (m : DMap) (d : Det)
    (h : alookup m d.ingredient_id = none) :
    clarifaiStep m d = dictSet m d.ingredient_id d := by
  unfold clarifaiStep
  rw [h]

lemma clarifaiStep_of_some (m : DMap) (d e : Det)
    (h : alookup m d.ingredient_id = some e) :
    clarifaiStep m d =
      if e.confidence < d.confidence then dictSet m d.ingredient_id d
      else m := by
  unfold clarifaiStep
  rw [h]

lemma ub_foldl_clarifai (cs : List Det) (m : DMap) (seen : List Det)
    (hub : UB m seen) :
    UB (cs.foldl clarifaiStep m) (seen ++ cs) := by
  induction cs generalizing m seen with
  | nil => simpa using hub
  | cons d t ih =>
    have hub' : UB (clarifaiStep m d) (seen ++ [d]) := by
      cases he : alookup m d.ingredient_id with
      | none =>
        rw [clarifaiStep_of_none m d he]
        refine ub_extend_set m seen d hub ?_
        intro x hx hxid
        exact absurd hxid (((hub d.ingredient_id).1 he) x hx)
      | some e =>
        rw [clarifaiStep_of_some m d e he]
        by_cases hc : e.confidence < d.confidence
        · rw [if_pos hc]
          refine ub_extend_set m seen d hub ?_
          intro x hx hxid
          obtain ⟨_, _, h3⟩ := (hub d.ingredient_id).2 e he
          exact le_of_lt (lt_of_le_of_lt (h3 x hx hxid) hc)
        · rw [if_neg hc]
          exact ub_extend_keep m seen d e hub he (le_of_not_lt hc)
    have := ih (clarifaiStep m d) (seen ++ [d]) hub'
    simpa using this

/-! ## Normalizer lemmas -/

lemma replaceAllFuel_of_not_contains (pat rep : List Char) (fuel : Nat)
    (l : List Char) (h : containsSub l pat = false) :
    replaceAllFuel pat rep fuel l = l := by
  induction fuel generalizing l with
  | zero => cases l <;> rfl
  | succ n ih =>
    cases l with
    | nil => rfl
    | cons c t =>
      simp only [containsSub, Bool.or_eq_false_iff] at h
      have hne : ¬(pat ≠ [] ∧ pat.isPrefixOf (c :: t) = true) := by
        intro hcon
        rw [hcon.2] at h
        exact absurd h.1 (by simp)
      have hstep : replaceAllFuel pat rep (n + 1) (c :: t) =
          c :: replaceAllFuel pat rep n t := by
        show (if pat ≠ [] ∧ pat.isPrefixOf (c :: t) = true then
            rep ++ replaceAllFuel pat rep n (List.drop (pat.length - 1) t)
          else c :: replaceAllFuel pat rep n t) =
          c :: replaceAllFuel pat rep n t
        rw [if_neg hne]
      rw [hstep, ih t h.2]

lemma replaceAll_of_not_contains (pat rep l : List Char)
    (h : containsSub l pat = false) : replaceAll pat rep l = l :=
  replaceAllFuel_of_not_contains pat rep l.length l h

lemma foldl_replaceAll_id (pats : List (List Char)) (l : List Char)
    (h : ∀ p ∈ pats, containsSub l p = false) :
    pats.foldl (fun acc pat => replaceAll pat [] acc) l = l := by
  induction pats with
  | nil => rfl
  | cons p ps ih =>
    simp only [List.foldl_cons]
    rw [replaceAll_of_not_contains p [] l (h p (by simp))]
    exact ih (fun q hq => h q (List.mem_cons_of_mem _ hq))

/-- When no alias, no plural and no modifier-substring rule applies, the
normalizer returns the trimmed lowercased input unchanged. -/
lemma normalize_eq_of_no_rule (x : List Char)
    (h1 : lookupTable INGREDIENT_ALIASES (trimChars (lowerChars x)) = none)
    (h2 : lookupTable PLURAL_TO_SINGULAR (trimChars (lowerChars x)) = none)
    (h3 : ∀ p ∈ MODIFIERS, containsSub (trimChars (lowerChars x)) p = false) :
    normalize_detection_name x = trimChars (lowerChars x) := by
  have ht1 : tableApply INGREDIENT_ALIASES (trimChars (lowerChars x)) =
      trimChars (lowerChars x) := by
    unfold tableApply
    rw [h1]
  have ht2 : tableApply PLURAL_TO_SINGULAR (trimChars (lowerChars x)) =
      trimChars (lowerChars x) := by
    unfold tableApply
    rw [h2]
  simp only [normalize_detection_name]
  rw [ht1, ht2]
  exact foldl_replaceAll_id MODIFIERS (trimChars (lowerChars x)) h3

/-! ## Matcher lemmas -/

lemma minByNameLen_isSome (a : Ingredient) (t : List Ingredient) :
    (minByNameLen (a :: t)).isSome := by
  unfold minByNameLen
  cases minByNameLen t with
  | none => simp
  | some m =>
    by_cases h : m.name.length < a.name.length <;> simp [h]

lemma minByNameLen_cons_none (a : Ingredient) (t : List Ingredient)
    (hm : minByNameLen t = none) : minByNameLen (a :: t) = some a := by
  unfold minByNameLen
  rw [hm]

lemma minByNameLen_cons_some (a m : Ingredient) (t : List Ingredient)
    (hm : minByNameLen t = some m) :
    minByNameLen (a :: t) =
      if m.name.length < a.name.length then some m else some a := by
  unfold minByNameLen
  rw [hm]

lemma minByNameLen_spec (l : List Ingredient) :
    ∀ i, minByNameLen l = some i →
      i ∈ l ∧ ∀ j ∈ l, i.name.length ≤ j.name.length := by
  induction l with
  | nil =>
    intro i h
    simp [minByNameLen] at h
  | cons a t ih =>
    intro i h
    cases hm : minByNameLen t with
    | none =>
      rw [minByNameLen_cons_none a t hm] at h
      obtain rfl : a = i := by injection h
      have ht : t = [] := by
        cases t with
        | nil => rfl
        | cons b u => exact absurd (hm ▸ minByNameLen_isSome b u) (by simp)
      subst ht
      exact ⟨by simp, by simp⟩
    | some m =>
      rw [minByNameLen_cons_some a m t hm] at h
      obtain ⟨hmem, hbound⟩ := ih m hm
      by_cases hlt : m.name.length < a.name.length
      · rw [if_pos hlt] at h
        obtain rfl : m = i := by injection h
        refine ⟨List.mem_cons_of_mem _ hmem, ?_⟩
        intro j hj
        rcases List.mem_cons.mp hj with rfl | hj
        · exact le_of_lt hlt
        · exact hbound j hj
      · rw [if_neg hlt] at h
        obtain rfl : a = i := by injection h
        refine ⟨List.mem_cons_self _ _, ?_⟩
        intro j hj
        rcases List.mem_cons.mp hj with rfl | hj
        · exact le_refl _
        · exact le_trans (le_of_not_lt hlt) (hbound j hj)

lemma queryFirstByLen_spec (cat : List Ingredient) (pred : Ingredient → Bool)
    (i : Ingredient) (h : queryFirstByLen cat pred = some i) :
    pred i = true ∧ i ∈ cat ∧
      ∀ j ∈ cat, pred j = true → i.name.length ≤ j.name.length := by
  obtain ⟨hmem, hbound⟩ := minByNameLen_spec (cat.filter pred) i h
  obtain ⟨hic, hip⟩ := List.mem_filter.mp hmem
  refine ⟨hip, hic, ?_⟩
  intro j hj hjp
  exact hbound j (List.mem_filter.mpr ⟨hj, hjp⟩)

/-! ## Dead-code structure of the Clarifai reverse-match loop -/

lemma clarifaiLadder_none (cat : List Ingredient) (ts : List (List Char))
    (h : clarifaiLadder cat ts = none) :
    ∀ t ∈ ts, clarifaiTryTerm cat t = none := by
  induction ts with
  | nil => simp
  | cons t rest ih =>
    intro u hu
    unfold clarifaiLadder at h
    cases htt : clarifaiTryTerm cat t with
    | some i =>
      rw [htt] at h
      exact absurd h (by simp)
    | none =>
      rw [htt] at h
      rcases List.mem_cons.mp hu with rfl | hu
      · exact htt
      · exact ih h u hu

lemma clarifaiTryTerm_none_contains (cat : List Ingredient) (t : List Char)
    (h : clarifaiTryTerm cat t = none) : clarifaiContains cat t = none := by
  unfold clarifaiTryTerm at h
  cases he : clarifaiExact cat t with
  | some i =>
    rw [he] at h
    exact absurd h (by simp)
  | none =>
    rw [he] at h
    cases hs : clarifaiStartsWith cat t with
    | some i =>
      rw [hs] at h
      exact absurd h (by simp)
    | none =>
      rwa [hs] at h

lemma clarifaiContains_none_pred (cat : List Ingredient) (t : List Char)
    (h : clarifaiContains cat t = none) :
    ∀ i ∈ cat, ¬(!i.is_deleted && clarifaiContainsPred t i) = true := by
  unfold clarifaiContains queryFirst at h
  have hfil : cat.filter
      (fun i => !i.is_deleted && clarifaiContainsPred t i) = [] := by
    cases hc : cat.filter (fun i => !i.is_deleted && clarifaiContainsPred t i)
      with
    | nil => rfl
    | cons a u =>
      rw [hc] at h
      exact absurd h (by simp)
  intro i hi hp
  have : i ∈ cat.filter (fun i => !i.is_deleted && clarifaiContainsPred t i) :=
    List.mem_filter.mpr ⟨hi, hp⟩
  rw [hfil] at this
  simp at this

lemma clarifaiReverse_none (cat : List Ingredient) (ts : List (List Char))
    (hmem : ∀ t ∈ ts, ∀ i ∈ cat,
      ¬(!i.is_deleted && clarifaiContainsPred t i) = true) :
    clarifaiReverse cat ts = none := by
  induction ts with
  | nil => rfl
  | cons t rest ih =>
    unfold clarifaiReverse
    have hfind : ((cat.filter (fun i => !i.is_deleted)).take 100).find?
        (fun i => clarifaiContainsPred t i) = none := by
      rw [List.find?_eq_none]
      intro i hi hp
      have hic : i ∈ cat.filter (fun i => !i.is_deleted) :=
        List.mem_of_mem_take hi
      obtain ⟨hicat, hdel⟩ := List.mem_filter.mp hic
      exact hmem t (by simp) i hicat (by simp [hdel, hp])
    rw [hfind]
    exact ih (fun u hu => hmem u (List.mem_cons_of_mem _ hu))

/-! ## Merge output values come from the inputs -/

lemma vals_foldl_yolo (ys : List Det) (m : DMap) (inputs : List Det)
    (hm : ∀ p ∈ m, p.2 ∈ inputs) (hys : ∀ d ∈ ys, d ∈ inputs) :
    ∀ p ∈ ys.foldl yoloStep m, p.2 ∈ inputs := by
  induction ys generalizing m with
  | nil => exact hm
  | cons d t ih =>
    refine ih (yoloStep m d) ?_ (fun x hx => hys x (List.mem_cons_of_mem _ hx))
    intro p hp
    rcases mem_dictSet p m d.ingredient_id d hp with h | h
    · exact hm p h
    · rw [h]
      exact hys d (by simp)

lemma vals_foldl_clarifai (cs : List Det) (m : DMap) (inputs : List Det)
    (hm : ∀ p ∈ m, p.2 ∈ inputs) (hcs : ∀ d ∈ cs, d ∈ inputs) :
    ∀ p ∈ cs.foldl clarifaiStep m, p.2 ∈ inputs := by
  induction cs generalizing m with
  | nil => exact hm
  | cons d t ih =>
    refine ih (clarifaiStep m d) ?_
      (fun x hx => hcs x (List.mem_cons_of_mem _ hx))
    intro p hp
    rcases clarifaiStep_cases m d with hc | hc
    · rw [hc] at hp
      rcases mem_dictSet p m d.ingredient_id d hp with h | h
      · exact hm p h
      · rw [h]
        exact hcs d (by simp)
    · rw [hc] at hp
      exact hm p hp

lemma mem_merge_mem_map (ys cs : List Det) (d : Det)
    (h : d ∈ merge_detections ys cs) :
    ∃ p ∈ (cs.foldl clarifaiStep (ys.foldl yoloStep [])), p.2 = d := by
  unfold merge_detections at h
  have hperm := sortDesc_perm
    (((cs.foldl clarifaiStep (ys.foldl yoloStep []))).map Prod.snd)
  have : d ∈ ((cs.foldl clarifaiStep (ys.foldl yoloStep []))).map Prod.snd :=
    hperm.mem_iff.mp h
  rcases List.mem_map.mp this with ⟨p, hp, hpd⟩
  exact ⟨p, hp, hpd⟩

/-! ## Claim C1 -/

/-- Spec scenario 1: source A sees "apples" at 0.9, source B sees "red
apple" at 0.7, both resolving to catalog id 12. -/
def exC1yolo : Det :=
  ⟨12, "Apple".data, "apples".data, mkRat 9 10, Source.yolo, none⟩

def exC1clar : Det :=
  ⟨12, "Apple".data, "red apple".data, mkRat 7 10, Source.clarifai, some true⟩

/-- Claim C1, counterexample: on the spec's own scenario 1 the merged entry
for id 12 records only `yolo` as its source (the whole kept detection is the
YOLO one), even though the Clarifai input also contributed id 12 — no set of
contributing sources `{A, B}` is computed anywhere. -/
theorem merge_single_source_counterexample :
    (merge_detections [exC1yolo] [exC1clar]).map (fun d => d.source) =
      [Source.yolo] ∧
    exC1yolo.ingredient_id = 12 ∧ exC1clar.ingredient_id = 12 ∧
    exC1clar.source ≠ Source.yolo := by
  decide

/-- Claim C1, amended: each merged entry is one of the contributing input
detections kept whole — carrying that single detection's `source` field, not
the set of all sources that contributed its `catalogEntryId`.  (Its
confidence is maximal among the contributions under the no-duplicate-YOLO-id
hypothesis of C3.) -/
theorem merge_output_entries_are_inputs (ys cs : List Det) (d : Det)
    (h : d ∈ merge_detections ys cs) : d ∈ ys ∨ d ∈ cs := by
  rcases mem_merge_mem_map ys cs d h with ⟨p, hp, hpd⟩
  have hin := vals_foldl_clarifai cs (ys.foldl yoloStep []) (ys ++ cs)
    (vals_foldl_yolo ys [] (ys ++ cs) (by simp)
      (fun x hx => List.mem_append.mpr (Or.inl hx)))
    (fun x hx => List.mem_append.mpr (Or.inr hx)) p hp
  rw [hpd] at hin
  exact List.mem_append.mp hin

theorem merge_output_entries_are_inputs_witness :
    exC1yolo ∈ merge_detections [exC1yolo] [exC1clar] ∧
    (exC1yolo ∈ [exC1yolo] ∨ exC1yolo ∈ [exC1clar]) :=
  ⟨by decide,
   merge_output_entries_are_inputs [exC1yolo] [exC1clar] exC1yolo (by decide)⟩

/-! ## Claim C2 -/

def exC2a : Det := ⟨5, "Beet".data, "beet".data, mkRat 1 2, Source.yolo, none⟩

def exC2b : Det := ⟨3, "Pea".data, "pea".data, mkRat 1 2, Source.yolo, none⟩

/-- Claim C2, counterexample: two detections with equal confidence and ids 5
and 3 come out in insertion order (5 before 3), not in ascending-id order;
and permuting the input list permutes the output, so multiset-equal inputs
do not yield identical ordered outputs. -/
theorem merge_tie_order_counterexample :
    merge_detections [exC2a, exC2b] [] = [exC2a, exC2b] ∧
    merge_detections [exC2b, exC2a] [] = [exC2b, exC2a] ∧
    exC2a.confidence = exC2b.confidence ∧
    exC2a.ingredient_id = 5 ∧ exC2b.ingredient_id = 3 ∧
    ([exC2a, exC2b] : List Det) ≠ [exC2b, exC2a] := by
  decide

/-- Claim C2, amended: the merged output is sorted in non-increasing
confidence order; equal confidences keep dict-insertion order (Python's
stable `sorted`), not ascending `catalogEntryId`, so the output is a
deterministic function of the two ordered input lists but not of their
multiset. -/
theorem merge_output_sorted_desc (ys cs : List Det) :
    SortedDesc (merge_detections ys cs) := by
  simp only [merge_detections]
  exact sortedDesc_sortDesc _

/-! ## Claim C3 -/

def exC3a : Det := ⟨1, "Apple".data, "apple".data, mkRat 9 10, Source.yolo, none⟩

def exC3b : Det :=
  ⟨1, "Apple".data, "apple pie".data, mkRat 1 2, Source.yolo, none⟩

/-- Claim C3, counterexample: when the YOLO list itself carries two
detections with the same ingredient id (0.9 then 0.5), the first merge loop
overwrites unconditionally, so the surviving entry has confidence 0.5, not
the maximum 0.9. -/
theorem merge_max_confidence_counterexample :
    (merge_detections [exC3a, exC3b] []).map
      (fun d => (d.ingredient_id, d.confidence)) = [(1, mkRat 1 2)] ∧
    exC3a.ingredient_id = 1 ∧ exC3a.confidence = mkRat 9 10 ∧
    mkRat 1 2 < mkRat 9 10 := by
  decide

/-- Claim C3, amended: the merged output never carries two entries with the
same `ingredient_id` — unconditionally, for every pair of input lists; and
provided the YOLO list has pairwise-distinct ids (duplicate YOLO ids keep
only the last occurrence), every input id is represented by an entry that is
itself one of the contributions for that id (so the bound is attained) and
whose confidence bounds every contribution for that id. -/
theorem merge_nodup_and_max_confidence (ys cs : List Det) :
    ((merge_detections ys cs).map (fun d => d.ingredient_id)).Nodup ∧
    ((ys.map (fun d => d.ingredient_id)).Nodup →
      ∀ i ∈ (ys ++ cs).map (fun d => d.ingredient_id),
        ∃ e ∈ merge_detections ys cs,
          e.ingredient_id = i ∧ e ∈ ys ++ cs ∧
          ∀ d ∈ ys ++ cs, d.ingredient_id = i →
            d.confidence ≤ e.confidence) := by
  have hK : KeysOk (cs.foldl clarifaiStep (ys.foldl yoloStep [])) :=
    keysOk_foldl_clarifai cs _ (keysOk_foldl_yolo ys [] (by intro p hp; simp at hp))
  have hN : ((cs.foldl clarifaiStep (ys.foldl yoloStep [])).map
      Prod.fst).Nodup :=
    nodup_keys_foldl_clarifai cs _ (nodup_keys_foldl_yolo ys [] (by simp))
  constructor
  · have hperm :
        ((merge_detections ys cs).map (fun d => d.ingredient_id)).Perm
          (((cs.foldl clarifaiStep (ys.foldl yoloStep [])).map
            Prod.snd).map (fun d => d.ingredient_id)) := by
      simp only [merge_detections]
      exact (sortDesc_perm _).map _
    rw [hperm.nodup_iff]
    rw [List.map_map]
    have : ((cs.foldl clarifaiStep (ys.foldl yoloStep [])).map
        ((fun d => d.ingredient_id) ∘ Prod.snd)) =
        ((cs.foldl clarifaiStep (ys.foldl yoloStep [])).map Prod.fst) := by
      refine List.map_congr_left ?_
      intro p hp
      exact (hK p hp).symm
    rw [this]
    exact hN
  · intro h
    have hub : UB (cs.foldl clarifaiStep (ys.foldl yoloStep [])) (ys ++ cs) := by
      have h1 : UB (ys.foldl yoloStep []) ys := by
        have := ub_foldl_yolo ys [] [] ub_nil
          (by intro d hd; rfl) h
        simpa using this
      exact ub_foldl_clarifai cs _ ys h1
    intro i hi
    rcases List.mem_map.mp hi with ⟨d, hd, rfl⟩
    cases he : alookup (cs.foldl clarifaiStep (ys.foldl yoloStep []))
        d.ingredient_id with
    | none =>
      exact absurd rfl (((hub d.ingredient_id).1 he) d hd)
    | some e =>
      obtain ⟨h1, h2, h3⟩ := (hub d.ingredient_id).2 e he
      refine ⟨e, ?_, h1, h2, h3⟩
      have hmem : (d.ingredient_id, e) ∈
          cs.foldl clarifaiStep (ys.foldl yoloStep []) :=
        alookup_mem _ _ _ he
      simp only [merge_detections]
      exact (sortDesc_perm _).mem_iff.mpr
        (List.mem_map.mpr ⟨(d.ingredient_id, e), hmem, rfl⟩)

def exC3wy : Det := ⟨1, "Apple".data, "apple".data, mkRat 1 2, Source.yolo, none⟩

def exC3wc : Det :=
  ⟨2, "Beet".data, "beets".data, mkRat 3 4, Source.clarifai, some false⟩

theorem merge_nodup_and_max_confidence_witness :
    ((merge_detections [exC3wy] [exC3wc]).map
      (fun d => d.ingredient_id)).Nodup ∧
    (([exC3wy].map (fun d => d.ingredient_id)).Nodup ∧
      ∀ i ∈ ([exC3wy] ++ [exC3wc]).map (fun d => d.ingredient_id),
        ∃ e ∈ merge_detections [exC3wy] [exC3wc],
          e.ingredient_id = i ∧ e ∈ [exC3wy] ++ [exC3wc] ∧
          ∀ d ∈ [exC3wy] ++ [exC3wc], d.ingredient_id = i →
            d.confidence ≤ e.confidence) :=
  ⟨(merge_nodup_and_max_confidence [exC3wy] [exC3wc]).1,
   by decide,
   (merge_nodup_and_max_confidence [exC3wy] [exC3wc]).2 (by decide)⟩

/-! ## Claim C10 -/

/-- Claim C10, confirmed: in the second merge loop, a Clarifai detection
whose id is already present replaces the stored (primary) entry only when
its confidence is strictly greater; at equal (or lower) confidence the
stored detection is kept bit-for-bit (the whole merge output is unchanged,
so `source`, `detected_as` and all other fields survive). -/
theorem clarifai_tie_keeps_primary (ys : List Det) (c e : Det)
    (h : alookup (ys.foldl yoloStep []) c.ingredient_id = some e) :
    (c.confidence ≤ e.confidence →
      merge_detections ys [c] = merge_detections ys []) ∧
    (e.confidence < c.confidence →
      c ∈ merge_detections ys [c] ∧
      ∀ d ∈ merge_detections ys [c],
        d.ingredient_id = c.ingredient_id → d = c) := by
  constructor
  · intro hle
    simp only [merge_detections, List.foldl_cons, List.foldl_nil]
    rw [clarifaiStep_of_some _ c e h, if_neg (not_lt.mpr hle)]
  · intro hlt
    have hm2 : [c].foldl clarifaiStep (ys.foldl yoloStep []) =
        dictSet (ys.foldl yoloStep []) c.ingredient_id c := by
      simp only [List.foldl_cons, List.foldl_nil]
      rw [clarifaiStep_of_some _ c e h, if_pos hlt]
    have hself : alookup (dictSet (ys.foldl yoloStep []) c.ingredient_id c)
        c.ingredient_id = some c := alookup_dictSet_self _ _ _
    have hcmem : (c.ingredient_id, c) ∈
        dictSet (ys.foldl yoloStep []) c.ingredient_id c :=
      alookup_mem _ _ _ hself
    constructor
    · simp only [merge_detections]
      rw [hm2]
      exact (sortDesc_perm _).mem_iff.mpr
        (List.mem_map.mpr ⟨(c.ingredient_id, c), hcmem, rfl⟩)
    · intro d hd hid
      rcases mem_merge_mem_map ys [c] d hd with ⟨p, hp, hpd⟩
      rw [hm2] at hp
      have hK : KeysOk (dictSet (ys.foldl yoloStep []) c.ingredient_id c) := by
        have h0 : KeysOk (ys.foldl yoloStep []) :=
          keysOk_foldl_yolo ys [] (by intro q hq; simp at hq)
        intro q hq
        rcases mem_dictSet q _ _ _ hq with hmq | hq'
        · exact h0 q hmq
        · rw [hq']
      have hN : ((dictSet (ys.foldl yoloStep []) c.ingredient_id c).map
          Prod.fst).Nodup :=
        nodup_keys_dictSet _ _ _ (nodup_keys_foldl_yolo ys [] (by simp))
      have hpl : alookup (dictSet (ys.foldl yoloStep []) c.ingredient_id c)
          p.1 = some p.2 := alookup_of_mem_nodup _ p hN hp
      have hp1 : p.1 = c.ingredient_id := by
        rw [hK p hp, hpd, hid]
      rw [hp1, hself] at hpl
      have : c = p.2 := by injection hpl
      rw [← hpd, ← this]

def exC10y : Det :=
  ⟨7, "Tomato".data, "tomato".data, mkRat 3 5, Source.yolo, none⟩

def exC10c : Det :=
  ⟨7, "Tomato".data, "tomato".data, mkRat 3 5, Source.clarifai, some true⟩

theorem clarifai_tie_keeps_primary_witness :
    merge_detections [exC10y] [exC10c] = merge_detections [exC10y] [] :=
  (clarifai_tie_keeps_primary [exC10y] exC10c exC10y (by decide)).1 (by decide)

/-! ## Claim C4 -/

/-- Claim C4, counterexample: normalization is not idempotent.  For
"fresh apples" the first pass strips `"fresh "` and yields "apples" (the
plural table is consulted before the modifier stripping, so it never sees
"apples"); a second pass then maps "apples" to "apple". -/
theorem normalize_idempotence_counterexample :
    normalize_detection_name (normalize_detection_name "fresh apples".data) ≠
      normalize_detection_name "fresh apples".data := by
  decide

/-- Claim C4, amended: normalization is idempotent exactly on labels whose
normal form is a fixed point of every rule — already lowercase and trimmed,
not an alias key, not a plural key, and containing none of the four modifier
substrings.  In general a second pass can differ (see the counterexample). -/
theorem normalize_idempotent_on_stable_forms (x : List Char)
    (h1 : lowerChars (normalize_detection_name x) = normalize_detection_name x)
    (h2 : trimChars (normalize_detection_name x) = normalize_detection_name x)
    (h3 : lookupTable INGREDIENT_ALIASES (normalize_detection_name x) = none)
    (h4 : lookupTable PLURAL_TO_SINGULAR (normalize_detection_name x) = none)
    (h5 : ∀ p ∈ MODIFIERS,
      containsSub (normalize_detection_name x) p = false) :
    normalize_detection_name (normalize_detection_name x) =
      normalize_detection_name x := by
  have htl : trimChars (lowerChars (normalize_detection_name x)) =
      normalize_detection_name x := by
    rw [h1, h2]
  have := normalize_eq_of_no_rule (normalize_detection_name x)
    (by rw [htl]; exact h3) (by rw [htl]; exact h4)
    (by rw [htl]; exact h5)
  rw [this, htl]

theorem normalize_idempotent_on_stable_forms_witness :
    normalize_detection_name (normalize_detection_name "apples".data) =
      normalize_detection_name "apples".data :=
  normalize_idempotent_on_stable_forms "apples".data (by decide) (by decide)
    (by decide) (by decide) (by decide)

/-! ## Claim C5 -/

/-- Claim C5, counterexample: the code removes the four descriptive
modifiers at every occurrence (`str.replace`), not only at the front of the
label.  For "farm fresh apple" no alias rule, no plural rule and no *prefix*
rule applies, so under the claim the trimmed lowercased input would be
returned unchanged; the code instead deletes the interior `"fresh "` and
returns "farm apple". -/
theorem normalize_prefix_only_counterexample :
    normalize_detection_name "farm fresh apple".data = "farm apple".data ∧
    trimChars (lowerChars "farm fresh apple".data) =
      "farm fresh apple".data ∧
    lookupTable INGREDIENT_ALIASES "farm fresh apple".data = none ∧
    lookupTable PLURAL_TO_SINGULAR "farm fresh apple".data = none ∧
    (∀ p ∈ MODIFIERS, p.isPrefixOf "farm fresh apple".data = false) := by
  decide

/-- Claim C5, amended: normalization is the total deterministic pipeline
lowercase+trim, alias lookup, plural lookup, then deletion of the four
modifier substrings at *every* occurrence (Python `str.replace`), not only
at the front; when no alias rule, no plural rule and no modifier
*occurrence* exists, the trimmed lowercased input is returned unchanged. -/
theorem normalize_no_rule_returns_input (x : List Char)
    (h1 : lookupTable INGREDIENT_ALIASES (trimChars (lowerChars x)) = none)
    (h2 : lookupTable PLURAL_TO_SINGULAR (trimChars (lowerChars x)) = none)
    (h3 : ∀ p ∈ MODIFIERS, containsSub (trimChars (lowerChars x)) p = false) :
    normalize_detection_name x = trimChars (lowerChars x) :=
  normalize_eq_of_no_rule x h1 h2 h3

theorem normalize_no_rule_returns_input_witness :
    normalize_detection_name " Kiwis ".data =
      trimChars (lowerChars " Kiwis ".data) :=
  normalize_no_rule_returns_input " Kiwis ".data (by decide) (by decide)
    (by decide)

/-! ## Claim C6 -/

lemma firstHit_singleton (cat : List Ingredient) (t : List Char) :
    firstHit cat [t] = mapperTryTerm cat t := by
  unfold firstHit
  cases h : mapperTryTerm cat t with
  | some i => rfl
  | none => rfl

def exCat6 : List Ingredient :=
  [⟨1, "Apple".data, none, false, true⟩,
   ⟨2, "Canned Apples".data, none, false, true⟩]

/-- Claim C6, counterexample: for the detection "apples" (raw lowercase
"apples", normalized "apple"), the catalog holds an exact match for the
normalized label ("Apple"), which the claim's algorithm — raw tried only as
one extra exact lookup — would return.  The code instead runs the whole
ladder (exact, starts-with, contains) on the raw label first and returns
"Canned Apples" through a substring match on "apples". -/
theorem raw_label_substring_counterexample :
    map_detection_to_ingredient exCat6 "apples".data =
      some ⟨2, "Canned Apples".data, none, false, true⟩ ∧
    mapperExact exCat6 (normalize_detection_name "apples".data) =
      some ⟨1, "Apple".data, none, false, true⟩ ∧
    lowerChars "apples".data ≠ normalize_detection_name "apples".data := by
  decide

/-- Claim C6, amended: when the lowercased raw label differs from the
normalized label, `map_detection_to_ingredient` runs the full three-strategy
ladder (exact, starts-with, contains) on the raw label first — any hit there
wins — and only if all three fail does it run the same ladder on the
normalized label.  (There is no reverse-containment strategy in this path.) -/
theorem raw_label_full_ladder_priority (cat : List Ingredient)
    (name : List Char)
    (hdiff : lowerChars name ≠ normalize_detection_name name) :
    (∀ i, mapperTryTerm cat (lowerChars name) = some i →
      map_detection_to_ingredient cat name = some i) ∧
    (mapperTryTerm cat (lowerChars name) = none →
      map_detection_to_ingredient cat name =
        mapperTryTerm cat (normalize_detection_name name)) := by
  constructor
  · intro i hi
    simp only [map_detection_to_ingredient]
    rw [if_pos hdiff]
    unfold firstHit
    rw [hi]
  · intro hn
    simp only [map_detection_to_ingredient]
    rw [if_pos hdiff]
    unfold firstHit
    rw [hn]
    exact firstHit_singleton cat _

theorem raw_label_full_ladder_priority_witness :
    map_detection_to_ingredient exCat6 "apples".data =
      some ⟨2, "Canned Apples".data, none, false, true⟩ :=
  (raw_label_full_ladder_priority exCat6 "apples".data (by decide)).1
    ⟨2, "Canned Apples".data, none, false, true⟩ (by decide)

/-! ## Claim C7 -/

def exCat7 : List Ingredient :=
  [⟨1, "Apple Juice".data, none, false, true⟩,
   ⟨2, "Apple".data, none, false, true⟩]

/-- Claim C7, counterexample: resolving "appl" through the Clarifai mapping
path returns "Apple Juice" — the first starts-with row in database order —
even though the shorter base ingredient "Apple" also matches; the
shortest-name tie-break exists only in `map_detection_to_ingredient`, which
returns "Apple" on the same catalog. -/
theorem clarifai_no_shortest_tiebreak_counterexample :
    clarifaiResolve exCat7 "appl".data =
      some ⟨1, "Apple Juice".data, none, false, true⟩ ∧
    map_detection_to_ingredient exCat7 "appl".data =
      some ⟨2, "Apple".data, none, false, true⟩ ∧
    "Apple".data.length < "Apple Juice".data.length := by
  decide

/-- Claim C7, amended: the shortest-`canonicalName` tie-break holds for the
starts-with and contains strategies of `map_detection_to_ingredient` (any
returned row matches, is in the catalog, and has minimal name length among
all matching rows); the Clarifai mapping path (`map_clarifai_to_ingredients`)
instead takes the first matching row in database order with no length
ordering. -/
theorem mapper_shortest_name_tiebreak (cat : List Ingredient) (t : List Char)
    (i : Ingredient) :
    (mapperStartsWith cat t = some i →
      t.isPrefixOf (lowerChars i.name) = true ∧ i ∈ cat ∧
      ∀ j ∈ cat, t.isPrefixOf (lowerChars j.name) = true →
        i.name.length ≤ j.name.length) ∧
    (mapperContains cat t = some i →
      containsSub (lowerChars i.name) t = true ∧ i ∈ cat ∧
      ∀ j ∈ cat, containsSub (lowerChars j.name) t = true →
        i.name.length ≤ j.name.length) := by
  constructor
  · intro h
    unfold mapperStartsWith at h
    exact queryFirstByLen_spec cat _ i h
  · intro h
    unfold mapperContains at h
    exact queryFirstByLen_spec cat _ i h

theorem mapper_shortest_name_tiebreak_witness :
    "appl".data.isPrefixOf
      (lowerChars (⟨2, "Apple".data, none, false, true⟩ : Ingredient).name) =
      true ∧
    (⟨2, "Apple".data, none, false, true⟩ : Ingredient) ∈ exCat7 ∧
    ∀ j ∈ exCat7, "appl".data.isPrefixOf (lowerChars j.name) = true →
      (⟨2, "Apple".data, none, false, true⟩ : Ingredient).name.length ≤
        j.name.length :=
  (mapper_shortest_name_tiebreak exCat7 "appl".data
    ⟨2, "Apple".data, none, false, true⟩).1 (by decide)

/-! ## Claim C8 -/

def exCat8 : List Ingredient := [⟨1, "Apple".data, none, false, true⟩]

/-- Claim C8, counterexample: the label "green apple pie" contains the
canonical name "apple" as a substring, yet after strategies (a)-(c) fail
both resolution paths return `none` — no code path implements
label-contains-canonicalName ("reverse containment" in the spec's
direction). -/
theorem no_reverse_containment_counterexample :
    map_detection_to_ingredient exCat8 "green apple pie".data = none ∧
    clarifaiResolve exCat8 "green apple pie".data = none ∧
    containsSub "green apple pie".data "apple".data = true := by
  decide

/-- Claim C8, amended: the only "reverse match" loop in the code (Clarifai
path, strategy 4) re-tests canonicalName-contains-label — the same predicate
and direction as strategy (c) — over at most the first 100 non-deleted rows,
so it can never fire after (a)-(c) have failed: resolution is completely
determined by the first three strategies, for every catalog and label. -/
theorem clarifai_reverse_strategy_dead_code (cat : List Ingredient)
    (food : List Char) :
    clarifaiResolve cat food =
      clarifaiLadder cat (clarifaiSearchTerms food) := by
  simp only [clarifaiResolve]
  cases hl : clarifaiLadder cat (clarifaiSearchTerms food) with
  | some i => rfl
  | none =>
    show clarifaiReverse cat (clarifaiSearchTerms food) = none
    refine clarifaiReverse_none cat _ ?_
    intro t ht i hi hp
    have h1 := clarifaiLadder_none cat _ hl t ht
    have h2 := clarifaiTryTerm_none_contains cat t h1
    exact clarifaiContains_none_pred cat t h2 i hi hp

/-! ## Claim C9 -/

/-- Claim C9, counterexample: a YOLO adapter *construction* failure
(`get_yolo_detector()` raising, e.g. the model file is missing) reaches the
outer exception handler of `detect_ingredients_hybrid`, which returns an
error result — and Clarifai is never attempted.  Under the claim every
adapter failure, including construction failure, is recovered locally and
the pipeline returns a success (empty list at worst). -/
theorem yolo_ctor_failure_counterexample :
    detect_ingredients_hybrid []
        ⟨some "Model not found".data, Except.ok [], none, Except.ok []⟩ =
      Except.error "Model not found".data := by
  rfl

/-- Claim C9, amended: a recoverable YOLO *detection* failure and every
Clarifai failure (constructor or detection) are absorbed locally and
contribute zero detections — in particular, when both adapters fail
recoverably the pipeline still returns success with an empty list; but a
YOLO *constructor* failure escapes to the outer handler and yields an error
result (with Clarifai never attempted), so catalog unavailability is not the
only failure mode. -/
theorem hybrid_failure_handling :
    (∀ (cat : List Ingredient) (ye ce : List Char),
      detect_ingredients_hybrid cat
          ⟨none, Except.error ye, none, Except.error ce⟩ =
        Except.ok []) ∧
    (∀ (cat : List Ingredient) (ye ce : List Char)
        (cr : Except (List Char) (List RawDet)),
      detect_ingredients_hybrid cat ⟨none, Except.error ye, some ce, cr⟩ =
        Except.ok []) ∧
    (∀ (cat : List Ingredient) (e : List Char)
        (yr cr : Except (List Char) (List RawDet)) (cc : Option (List Char)),
      detect_ingredients_hybrid cat ⟨some e, yr, cc, cr⟩ = Except.error e) := by
  refine ⟨?_, ?_, ?_⟩ <;> intros <;> rfl

end FitMeal
